import Mathlib

/-!
Verification of the core algorithms of the `dice-sorensen-similarity-search`
repository, shallowly embedded from `internal/markdowndoc/handbook.go` and
`internal/markdowndoc/handbook_controller.go`.

Strings are modelled as `List Char`.  Every character the embedded code
branches on (the `\w` and `\d` Perl classes of Go's regexp engine, which are
ASCII-only, and the literal characters `_`, `-`, `/`, `.`, space) is ASCII;
on ASCII, Go's `strings.ToLower` agrees with `Char.toLower`, and UTF-8
byte-wise comparison (`strings.Compare`, `slices.Sort`) agrees with
code-point order, so the `List Char` embedding is faithful.

The `float64` similarity result is modelled as `Option ℚ`: `none` stands for
the IEEE NaN produced by the division `0/0`, and `some q` for the exact
rational value of `2*intersection/(|A|+|B|)`.  The numerator and denominator
are small integers, the division result is NaN exactly when the denominator
is zero, and the claims only inspect the exactly representable float values
`0.0` and `1.0`, on which the rational model and IEEE arithmetic agree.
-/

abbrev Str := List Char

/-- Go regexp word character `\w` = `[0-9A-Za-z_]` (Perl classes are
ASCII-only in Go's regexp package). -/
def isWordChar (c : Char) : Bool :=
  (c.isAlpha || c.isDigit) || c == '_'

/-- Prepends a character to the first chunk of a chunk list. -/
def consHead (c : Char) : List Str → List Str
  | [] => [[c]]
  | f :: fs => (c :: f) :: fs

/-- Embedding of `regexp.MustCompile("\\W+").Split(a, -1)` (handbook.go:593-594).
Go's `Split` returns the chunks of word characters delimited by the maximal
runs of non-word characters, including an empty chunk before a leading run,
after a trailing run, and the single chunk `[""]` for the empty string.
A word character extends the first chunk; a non-word character ends the
current chunk, and only the last character of a non-word run (the one not
followed by another non-word character) contributes the chunk boundary. -/
def splitWords : Str → List Str
  | [] => [[]]
  | [c] => if isWordChar c then [[c]] else [[], []]
  | c :: d :: rest =>
    if isWordChar c then consHead c (splitWords (d :: rest))
    else if isWordChar d then [] :: splitWords (d :: rest)
    else splitWords (d :: rest)

/-- The `1 + len(word)` sliding 3-character windows of the padded word
`"  " ++ word ++ " "` (handbook.go:607-616). -/
def trigramsOfWord (w : Str) : List Str :=
  let padded := ' ' :: ' ' :: (w ++ [' '])
  (List.range (1 + w.length)).map (fun i => (padded.drop i).take 3)

/-- Byte-wise (equivalently, code-point-wise) lexicographic order on strings,
the order used by `slices.Sort` and `strings.Compare`. -/
def strLeB : Str → Str → Bool
  | [], _ => true
  | _ :: _, [] => false
  | a :: as, b :: bs => if a = b then strLeB as bs else decide (a < b)

/-- `TransformToUniqueTrigrams` (handbook.go:587-628): split on non-word
runs, lower-case each word, collect the padded 3-character windows of every
word into a set, and return the set as a byte-wise sorted list.  The Go code
collects into a `map[string]struct{}` and then runs `slices.Sort`; since the
collected trigrams are distinct, the sorted list of the distinct elements is
the unique strictly sorted enumeration of that set, modelled here as
`dedup` followed by an insertion sort under the same order. -/
def transformToUniqueTrigrams (a : Str) : List Str :=
  if a = [] then []
  else
    let words := splitWords a
    let raw := words.flatMap (fun w => trigramsOfWord (w.map Char.toLower))
    List.insertionSort (fun s t => strLeB s t = true) raw.dedup

/-- `TrigramSorensenDiceSimilarity` (handbook.go:563-585).  The intersection
count iterates the unique trigrams of `b` and checks membership in the set
of unique trigrams of `a`; the result is `2*|A∩B| / (|A|+|B|)` as a
`float64`, modelled as `Option ℚ` with `none` for the NaN arising from the
`0/0` division when both trigram sets are empty. -/
def trigramSorensenDiceSimilarity (a b : Str) : Option ℚ :=
  let aTrigrams := transformToUniqueTrigrams a
  let bTrigrams := transformToUniqueTrigrams b
  let intersectionCount := (bTrigrams.filter (fun t => aTrigrams.contains t)).length
  if aTrigrams.length + bTrigrams.length = 0 then none
  else some ((2 * intersectionCount : ℚ) / ((aTrigrams.length : ℚ) + (bTrigrams.length : ℚ)))

theorem consHead_ne_nil (c : Char) (l : List Str) : consHead c l ≠ [] := by
  cases l <;> simp [consHead]

theorem splitWords_ne_nil (s : Str) : splitWords s ≠ [] := by
  induction s with
  | nil => simp [splitWords]
  | cons c rest ih =>
    cases rest with
    | nil =>
      by_cases hc : isWordChar c <;> simp [splitWords, hc]
    | cons d rest2 =>
      by_cases hc : isWordChar c
      · simp only [splitWords, hc, if_true]
        exact consHead_ne_nil _ _
      · by_cases hd : isWordChar d <;> simp_all [splitWords]

theorem transformToUniqueTrigrams_ne_nil (s : Str) (hs : s ≠ []) :
    transformToUniqueTrigrams s ≠ [] := by
  unfold transformToUniqueTrigrams
  simp only [hs, if_false]
  intro hcon
  have hlen := congrArg List.length hcon
  rw [List.length_insertionSort] at hlen
  have hdnil : ((splitWords s).flatMap
      (fun w => trigramsOfWord (w.map Char.toLower))).dedup = [] :=
    List.length_eq_zero.mp hlen
  rw [List.dedup_eq_nil] at hdnil
  cases hsw : splitWords s with
  | nil => exact splitWords_ne_nil s hsw
  | cons w ws =>
    rw [hsw, List.flatMap_cons] at hdnil
    have : trigramsOfWord (w.map Char.toLower) = [] := by
      rcases List.append_eq_nil.mp hdnil with ⟨h1, _⟩
      exact h1
    have hlen2 := congrArg List.length this
    simp [trigramsOfWord] at hlen2

theorem splitWords_all_nonword (s : Str) (hs : s ≠ [])
    (h : ∀ c ∈ s, isWordChar c = false) : splitWords s = [[], []] := by
  induction s with
  | nil => cases hs rfl
  | cons c rest ih =>
    have hc : isWordChar c = false := h c (by simp)
    cases rest with
    | nil => simp [splitWords, hc]
    | cons d rest2 =>
      have hd : isWordChar d = false := h d (by simp)
      have hrec := ih (by simp) (fun x hx => h x (by simp [hx]))
      simp [splitWords, hc, hd, hrec]

theorem transformToUniqueTrigrams_all_nonword (s : Str) (hs : s ≠ [])
    (h : ∀ c ∈ s, isWordChar c = false) :
    transformToUniqueTrigrams s = [[' ', ' ', ' ']] := by
  simp only [transformToUniqueTrigrams, if_neg hs, splitWords_all_nonword s hs h]
  rfl

/-- C1, counterexample: on two empty inputs `TrigramSorensenDiceSimilarity`
divides `0.0` by `0.0` and returns IEEE NaN (modelled as `none`), not `0.0`,
contradicting the claim that both-empty inputs yield 0 and the result is
never NaN. -/
theorem trigramSimilarity_bothEmpty_counterexample :
    trigramSorensenDiceSimilarity [] [] = none ∧
      trigramSorensenDiceSimilarity [] [] ≠ some 0 := by decide

/-- C1 (amended): for every non-empty string `s`,
`TrigramSorensenDiceSimilarity s "" = 0.0`; when both inputs are empty the
function instead evaluates the division `0/0` and returns NaN (`none`),
not `0`. -/
theorem trigramSimilarity_emptyArg (s : Str) (hs : s ≠ []) :
    trigramSorensenDiceSimilarity s [] = some 0 ∧
      trigramSorensenDiceSimilarity [] [] = none := by
  refine ⟨?_, rfl⟩
  have ha := transformToUniqueTrigrams_ne_nil s hs
  have halen : 0 < (transformToUniqueTrigrams s).length := List.length_pos.mpr ha
  simp only [trigramSorensenDiceSimilarity]
  have hnil : transformToUniqueTrigrams ([] : Str) = [] := rfl
  rw [hnil]
  simp only [List.filter_nil, List.length_nil, Nat.add_zero, Nat.cast_zero, add_zero,
    Nat.cast_ofNat, mul_zero, zero_div]
  rw [if_neg (by omega)]

theorem trigramSimilarity_emptyArg_witness :
    ("hello".toList ≠ ([] : Str)) ∧
      (trigramSorensenDiceSimilarity "hello".toList [] = some 0 ∧
        trigramSorensenDiceSimilarity [] [] = none) :=
  ⟨by decide, trigramSimilarity_emptyArg "hello".toList (by decide)⟩

/-- C10: a non-empty string containing no word characters splits into two
empty words, each contributing only the fully padded trigram of three
spaces, so the unique-trigram list is exactly `["   "]`; consequently any
two such strings have similarity `2*1/(1+1) = 1.0`. -/
theorem trigrams_nonword_spaces (a b : Str) (ha : a ≠ []) (hb : b ≠ [])
    (hwa : ∀ c ∈ a, isWordChar c = false) (hwb : ∀ c ∈ b, isWordChar c = false) :
    transformToUniqueTrigrams a = [[' ', ' ', ' ']] ∧
      trigramSorensenDiceSimilarity a b = some 1 := by
  have h1 := transformToUniqueTrigrams_all_nonword a ha hwa
  have h2 := transformToUniqueTrigrams_all_nonword b hb hwb
  refine ⟨h1, ?_⟩
  simp only [trigramSorensenDiceSimilarity, h1, h2]
  norm_num

theorem trigrams_nonword_spaces_witness :
    ("!!!".toList ≠ ([] : Str)) ∧ ("??".toList ≠ ([] : Str)) ∧
      (∀ c ∈ "!!!".toList, isWordChar c = false) ∧
      (∀ c ∈ "??".toList, isWordChar c = false) ∧
      (transformToUniqueTrigrams "!!!".toList = [[' ', ' ', ' ']] ∧
        trigramSorensenDiceSimilarity "!!!".toList "??".toList = some 1) :=
  ⟨by decide, by decide, by decide, by decide,
    trigrams_nonword_spaces "!!!".toList "??".toList (by decide) (by decide)
      (by decide) (by decide)⟩

/-- `NavigationItem` (handbook.go:70-76).  The Go struct also carries a
`Uuid` and a `Parent` back-pointer: the uuid is a fresh `uuidv7`, used only
to give nodes an identity during the merge pass (per-node unique, so the
`Href:Uuid` map key identifies a node), and the parent pointer is used only
by `findRoot` to walk from `createNavItemTree`'s bottom-most node back to
the root.  Both are therefore implicit here: a node is its `href`, `label`
and ordered `children`. -/
inductive NavItem where
  | mk (href label : Str) (children : List NavItem)

def NavItem.href : NavItem → Str
  | .mk h _ _ => h

def NavItem.label : NavItem → Str
  | .mk _ l _ => l

def NavItem.children : NavItem → List NavItem
  | .mk _ _ cs => cs

theorem NavItem.href_mk (h l : Str) (cs : List NavItem) :
    (NavItem.mk h l cs).href = h := rfl

theorem NavItem.label_mk (h l : Str) (cs : List NavItem) :
    (NavItem.mk h l cs).label = l := rfl

theorem NavItem.children_mk (h l : Str) (cs : List NavItem) :
    (NavItem.mk h l cs).children = cs := rfl

/-- `models.MarkdownMeta`: the fields `BuildNavigationItemTrees` reads. -/
structure MarkdownMeta where
  name : Str
  path : Str

/-- `strings.Split(path, "/")`: split on every slash, keeping empty fields. -/
def splitSlash : Str → List Str
  | [] => [[]]
  | c :: rest =>
    if c = '/' then [] :: splitSlash rest
    else consHead c (splitSlash rest)

/-- `strings.ReplaceAll(s, "_", " ")`. -/
def underscoreToSpace (s : Str) : Str :=
  s.map (fun c => if c = '_' then ' ' else c)

/-- The navigation branch contributed by one non-top-level record: one node
per remaining path element (href = the element, label = the element with
underscores replaced by spaces), each the sole child of the previous one,
with a leaf node for the document name under the bottom-most element
(handbook.go:185-203).  `createNavItemTree` (handbook.go:232-253) builds
this chain downward via parent pointers and `findRoot` (handbook.go:263-269)
walks back up to the top; the net result is this nested single-branch tree. -/
def buildChain (e : Str) : List Str → Str → NavItem
  | [], name =>
    .mk e (underscoreToSpace e) [.mk name (underscoreToSpace name) []]
  | e2 :: rest, name =>
    .mk e (underscoreToSpace e) [buildChain e2 rest name]

/-- The per-record step of the loop of `BuildNavigationItemTrees`
(handbook.go:147-204): `none` when the record contributes nothing (empty
path, first path element without the "markdowns" prefix, or a top-level
record named "Landing-Page"), otherwise the root tree appended for it. -/
def processMeta (m : MarkdownMeta) : Option NavItem :=
  if m.path = [] then none
  else
    match splitSlash m.path with
    | [] => none
    | e0 :: restElems =>
      if "markdowns".toList.isPrefixOf e0 then
        match restElems with
        | [] =>
          if m.name = "Landing-Page".toList then none
          else some (.mk m.name (underscoreToSpace m.name) [])
        | e1 :: rest => some (buildChain e1 rest m.name)
      else none

/-- The root trees accumulated by the loop of `BuildNavigationItemTrees`,
in record order (handbook.go:145-204). -/
def rootsOf (ms : List MarkdownMeta) : List NavItem :=
  ms.filterMap processMeta

/-- Children of every later twin (a node with the same `Href`) in slice
order, concatenated (handbook.go:309-325): the first node with a given href
absorbs the children of all later nodes carrying that href. -/
def absorbTwinChildren (h : Str) (l : List NavItem) : List NavItem :=
  (l.filter (fun n => decide (n.href = h))).flatMap NavItem.children

/-- One level of the merge pass of `linkChildrenWithTheSameParent`
(handbook.go:287-334).  The Go loop walks the slice in order; the first node
with a given href absorbs the children of every later node with that href,
and those later nodes are deleted from the maps, so they are skipped when
their turn comes.  `seen` carries the hrefs already processed. -/
def mergeDupsAux (seen : List Str) : List NavItem → List NavItem
  | [] => []
  | n :: rest =>
    if n.href ∈ seen then mergeDupsAux seen rest
    else
      .mk n.href n.label (n.children ++ absorbTwinChildren n.href rest)
        :: mergeDupsAux (n.href :: seen) rest

/-- Total number of nodes in a forest, at every depth. -/
def sizeForest : List NavItem → Nat
  | [] => 0
  | .mk _ _ cs :: rest => 1 + sizeForest cs + sizeForest rest

/-- `linkChildrenWithTheSameParent` (handbook.go:281-346), fuelled.  The Go
function merges one sibling level, rebuilds the slice from the surviving map
entries, sorts it byte-wise ascending by `Href` (`strings.Compare`,
handbook.go:336-338; survivors have pairwise distinct hrefs, so this order
is unique and the randomized Go map iteration order is immaterial), and
recurses into the children of every survivor.  The recursion descends into
merged children lists, which are not structural subterms, so the embedding
passes explicit fuel; `sizeForest` fuel is always sufficient, and the
lemmas below about the wrapper hold for the fuel it supplies. -/
def linkChildrenF : Nat → List NavItem → List NavItem
  | _, [] => []
  | 0, ts => ts
  | f + 1, ts =>
    (List.insertionSort (fun a b => strLeB a.href b.href = true) (mergeDupsAux [] ts)).map
      (fun n => .mk n.href n.label (linkChildrenF f n.children))

def linkChildrenWithTheSameParent (ts : List NavItem) : List NavItem :=
  linkChildrenF (sizeForest ts) ts

/-- `regexp.MustCompile("^\\.").MatchString`: the href starts with a dot. -/
def startsWithDot : Str → Bool
  | [] => false
  | c :: _ => c = '.'

/-- `removeDotPrefixedRoots` (handbook.go:353-370): keeps the top-level
items whose `Href` does not start with a dot.  The anchored regex always
compiles, so the nil-returning error branch is dead code and the caller's
nil-check (handbook.go:209-211) always adopts the filtered slice. -/
def removeDotPrefixedRoots (ts : List NavItem) : List NavItem :=
  ts.filter (fun n => !startsWithDot n.href)

/-- `regexp.MustCompile("^\\d+").MatchString s`: `s` starts with a digit. -/
def startsWithDigit : Str → Bool
  | [] => false
  | c :: _ => c.isDigit

/-- `FindString` of `^\d+`: the maximal leading run of digits. -/
def leadingDigits (s : Str) : Str :=
  s.takeWhile Char.isDigit

/-- `strings.TrimPrefix p s`: drops `p` when it is a prefix of `s`. -/
def trimPrefixStr (p s : Str) : Str :=
  if p.isPrefixOf s then s.drop p.length else s

/-- The body of the per-root loop of `removeNumberPrefixFromRoots`
(handbook.go:385-410): when the root has children and both `Href` and
`Label` start with digits, the leading digit run of `Href` plus separator
(`_` for href, space for label) is trimmed from both; when the root has no
children, only the label is trimmed; when exactly one of the two starts
with digits, the loop only logs a defect and changes nothing. -/
def removeNumberPrefixFromRoot (root : NavItem) : NavItem :=
  if !root.children.isEmpty && (startsWithDigit root.href && startsWithDigit root.label) then
    .mk (trimPrefixStr (leadingDigits root.href ++ ['_']) root.href)
      (trimPrefixStr (leadingDigits root.href ++ [' ']) root.label)
      root.children
  else if root.children.isEmpty && (startsWithDigit root.href && startsWithDigit root.label) then
    .mk root.href (trimPrefixStr (leadingDigits root.href ++ [' ']) root.label) root.children
  else root

/-- `removeNumberPrefixFromRoots` (handbook.go:376-411): the loop mutates
each root independently. -/
def removeNumberPrefixFromRoots (ts : List NavItem) : List NavItem :=
  ts.map removeNumberPrefixFromRoot

/-- Number of roots hitting the href/label mismatch branch
(handbook.go:406-409), each of which emits the two defect log lines. -/
def removeNumberPrefixDefects (ts : List NavItem) : Nat :=
  (ts.filter (fun n => startsWithDigit n.href ≠ startsWithDigit n.label)).length

/-- `BuildNavigationItemTrees` (handbook.go:143-220) up to and including the
collator sort of the roots (handbook.go:213-215), i.e. everything before
`removeNumberPrefixFromRoots`.  `cle` is the injected locale-aware
collation comparator of the `collate.Collator` (`cle a b` = "a sorts no
later than b"); the Go `Sort` establishes exactly `cle`-sortedness of the
root hrefs. -/
def buildNavigationItemTreesBeforeStrip (cle : Str → Str → Bool)
    (ms : List MarkdownMeta) : List NavItem :=
  List.insertionSort (fun a b => cle a.href b.href = true)
    (removeDotPrefixedRoots (linkChildrenWithTheSameParent (rootsOf ms)))

/-- `BuildNavigationItemTrees` (handbook.go:143-220), parametrized by the
injected collation comparator. -/
def buildNavigationItemTrees (cle : Str → Str → Bool)
    (ms : List MarkdownMeta) : List NavItem :=
  removeNumberPrefixFromRoots (buildNavigationItemTreesBeforeStrip cle ms)

/-- Pairwise check: every element is `pw`-related to every later element. -/
def pairwiseB (pw : Str → Str → Bool) : List Str → Bool
  | [] => true
  | x :: xs => xs.all (fun y => pw x y) && pairwiseB pw xs

/-- No duplicates in a list of strings. -/
def nodupStrB : List Str → Bool
  | [] => true
  | x :: xs => !xs.contains x && nodupStrB xs

/-- Some node, at any depth of the forest, has an href satisfying `p`. -/
def existsNodeB (p : Str → Bool) : List NavItem → Bool
  | [] => false
  | .mk h _ cs :: rest => p h || existsNodeB p cs || existsNodeB p rest

/-- Every children list in the forest (every sibling group strictly below
the given top-level list), at every depth, is `pw`-sorted on hrefs. -/
def childrenSortedByB (pw : Str → Str → Bool) : List NavItem → Bool
  | [] => true
  | .mk _ _ cs :: rest =>
    pairwiseB pw (cs.map NavItem.href) && childrenSortedByB pw cs
      && childrenSortedByB pw rest

/-- Every children list in the forest, at every depth, has
pairwise-distinct hrefs. -/
def childrenHrefsDistinctB : List NavItem → Bool
  | [] => true
  | .mk _ _ cs :: rest =>
    nodupStrB (cs.map NavItem.href) && childrenHrefsDistinctB cs
      && childrenHrefsDistinctB rest

/-- Every sibling group — the list itself and recursively every children
list — has pairwise-distinct hrefs. -/
def forestHrefsDistinctB (ts : List NavItem) : Bool :=
  nodupStrB (ts.map NavItem.href) && childrenHrefsDistinctB ts

/-- Every sibling group — the top-level list and recursively every children
list — is `pw`-sorted on hrefs. -/
def allSiblingGroupsSortedByB (pw : Str → Str → Bool) (ts : List NavItem) : Bool :=
  pairwiseB pw (ts.map NavItem.href) && childrenSortedByB pw ts

theorem takeWhile_digits_append (d : Str) (c : Char) (r : Str)
    (hdig : ∀ x ∈ d, x.isDigit = true) (hc : c.isDigit = false) :
    (d ++ c :: r).takeWhile Char.isDigit = d := by
  induction d with
  | nil => simp [List.takeWhile_cons, hc]
  | cons a d2 ih =>
    have ha := hdig a (by simp)
    simp only [List.cons_append, List.takeWhile_cons, ha, if_true]
    rw [ih (fun x hx => hdig x (by simp [hx]))]

theorem trimPrefixStr_append (p r : Str) : trimPrefixStr p (p ++ r) = r := by
  unfold trimPrefixStr
  rw [if_pos (List.isPrefixOf_iff_prefix.mpr (List.prefix_append p r))]
  exact List.drop_left p r

theorem startsWithDigit_append_of_digits (d r : Str) (hd : d ≠ [])
    (hdig : ∀ x ∈ d, x.isDigit = true) : startsWithDigit (d ++ r) = true := by
  cases d with
  | nil => cases hd rfl
  | cons a d2 => simpa [startsWithDigit] using hdig a (by simp)

theorem removeNumberPrefixFromRoot_sameRun (d h l : Str) (cs : List NavItem)
    (hd : d ≠ []) (hdig : ∀ c ∈ d, c.isDigit = true) :
    removeNumberPrefixFromRoot (NavItem.mk (d ++ '_' :: h) (d ++ ' ' :: l) cs)
      = NavItem.mk (if cs.isEmpty then d ++ '_' :: h else h) l cs := by
  have hh := startsWithDigit_append_of_digits d ('_' :: h) hd hdig
  have hl := startsWithDigit_append_of_digits d (' ' :: l) hd hdig
  have hldh : leadingDigits (d ++ '_' :: h) = d :=
    takeWhile_digits_append d '_' h hdig (by decide)
  have htrh : trimPrefixStr (d ++ ['_']) (d ++ '_' :: h) = h := by
    rw [List.append_cons d '_' h]
    exact trimPrefixStr_append (d ++ ['_']) h
  have htrl : trimPrefixStr (d ++ [' ']) (d ++ ' ' :: l) = l := by
    rw [List.append_cons d ' ' l]
    exact trimPrefixStr_append (d ++ [' ']) l
  cases cs with
  | nil =>
    simp only [removeNumberPrefixFromRoot, NavItem.href, NavItem.label, NavItem.children,
      List.isEmpty_nil, hh, hl, hldh, htrl, Bool.not_true, Bool.and_self, Bool.false_and,
      Bool.true_and, if_false, if_true]
    rw [if_neg (by simp)]
  | cons x xs =>
    simp only [removeNumberPrefixFromRoot, NavItem.href, NavItem.label, NavItem.children,
      List.isEmpty_cons, hh, hl, hldh, htrh, htrl, Bool.not_false, Bool.and_self,
      Bool.false_and, Bool.true_and, if_false, if_true]
    rw [if_neg (by simp)]

/-- C7: for every root whose href is the digit run `d` + `'_'` + `h` and
whose label is the same digit run `d` + `' '` + `l` (the shape produced by
the pipeline, where the label is the href with underscores replaced by
spaces): if the root has children, the numeric prefix is stripped from
both href and label; if it has none (a top-level leaf document), the href
is kept unchanged while the prefix is still stripped from the label. -/
theorem removeNumberPrefixFromRoots_sameRun (pre post : List NavItem) (d h l : Str)
    (cs : List NavItem) (hd : d ≠ []) (hdig : ∀ c ∈ d, c.isDigit = true) :
    removeNumberPrefixFromRoots
        (pre ++ NavItem.mk (d ++ '_' :: h) (d ++ ' ' :: l) cs :: post)
      = removeNumberPrefixFromRoots pre
          ++ NavItem.mk (if cs.isEmpty then d ++ '_' :: h else h) l cs
            :: removeNumberPrefixFromRoots post := by
  unfold removeNumberPrefixFromRoots
  rw [List.map_append, List.map_cons, removeNumberPrefixFromRoot_sameRun d h l cs hd hdig]

theorem removeNumberPrefixFromRoots_sameRun_witness :
    (("1".toList : Str) ≠ []) ∧ (∀ c ∈ ("1".toList : Str), c.isDigit = true) ∧
      removeNumberPrefixFromRoots
          [NavItem.mk ("1".toList ++ '_' :: "Gateway".toList)
            ("1".toList ++ ' ' :: "Gateway".toList) [NavItem.mk "Doc".toList "Doc".toList []]]
        = [NavItem.mk
            (if ([NavItem.mk "Doc".toList "Doc".toList []] : List NavItem).isEmpty
              then "1".toList ++ '_' :: "Gateway".toList else "Gateway".toList)
            "Gateway".toList [NavItem.mk "Doc".toList "Doc".toList []]] :=
  ⟨by decide, by decide,
    by
      have h := removeNumberPrefixFromRoots_sameRun [] [] "1".toList "Gateway".toList
        "Gateway".toList [NavItem.mk "Doc".toList "Doc".toList []] (by decide) (by decide)
      simpa [removeNumberPrefixFromRoots] using h⟩

/-- C8, counterexample: the root with href `"Gateway"` and label
`"1 Gateway"` has a numeric-prefix presence mismatch; the claim says the
normalizer continues with a best-effort fix stripping the label to
`"Gateway"`, but the code's mismatch branch (handbook.go:406-409) only logs
and leaves the root — label included — unchanged. -/
theorem removeNumberPrefix_mismatch_counterexample :
    removeNumberPrefixFromRoots [NavItem.mk "Gateway".toList "1 Gateway".toList []]
        = [NavItem.mk "Gateway".toList "1 Gateway".toList []] ∧
      ("1 Gateway".toList : Str) ≠ "Gateway".toList :=
  ⟨rfl, by decide⟩

theorem removeNumberPrefixFromRoot_of_mismatch (n : NavItem)
    (hmis : startsWithDigit n.href ≠ startsWithDigit n.label) :
    removeNumberPrefixFromRoot n = n := by
  unfold removeNumberPrefixFromRoot
  rcases hh : startsWithDigit n.href <;> rcases hl : startsWithDigit n.label <;>
    simp_all

/-- C8 (amended): a root with an href/label numeric-prefix presence
mismatch is counted among the defect-logged roots (the branch at
handbook.go:406-409 fires for exactly these roots, emitting the two error
log lines), processing of the other roots continues, and the mismatched
root itself is left completely unchanged — there is no best-effort fix and
its label is not stripped. -/
theorem removeNumberPrefixFromRoots_mismatch (pre post : List NavItem) (n : NavItem)
    (hmis : startsWithDigit n.href ≠ startsWithDigit n.label) :
    removeNumberPrefixFromRoots (pre ++ n :: post)
        = removeNumberPrefixFromRoots pre ++ n :: removeNumberPrefixFromRoots post ∧
      1 ≤ removeNumberPrefixDefects (pre ++ n :: post) := by
  constructor
  · unfold removeNumberPrefixFromRoots
    rw [List.map_append, List.map_cons, removeNumberPrefixFromRoot_of_mismatch n hmis]
  · unfold removeNumberPrefixDefects
    rw [List.filter_append, List.filter_cons, if_pos (by simpa using hmis)]
    simp only [List.length_append, List.length_cons]
    omega

theorem removeNumberPrefixFromRoots_mismatch_witness :
    (startsWithDigit (NavItem.mk "Gateway".toList "1 Gateway".toList []).href
        ≠ startsWithDigit (NavItem.mk "Gateway".toList "1 Gateway".toList []).label) ∧
      (removeNumberPrefixFromRoots [NavItem.mk "Gateway".toList "1 Gateway".toList []]
          = removeNumberPrefixFromRoots []
              ++ NavItem.mk "Gateway".toList "1 Gateway".toList []
                :: removeNumberPrefixFromRoots [] ∧
        1 ≤ removeNumberPrefixDefects [NavItem.mk "Gateway".toList "1 Gateway".toList []]) :=
  ⟨by decide,
    by
      have h := removeNumberPrefixFromRoots_mismatch [] []
        (NavItem.mk "Gateway".toList "1 Gateway".toList []) (by decide)
      simpa using h⟩

theorem rootsOf_cons_none (m : MarkdownMeta) (l : List MarkdownMeta)
    (h : processMeta m = none) : rootsOf (m :: l) = rootsOf l := by
  simp [rootsOf, List.filterMap_cons, h]

theorem rootsOf_cons_some (m : MarkdownMeta) (l : List MarkdownMeta) (r : NavItem)
    (h : processMeta m = some r) : rootsOf (m :: l) = r :: rootsOf l := by
  simp [rootsOf, List.filterMap_cons, h]

theorem rootsOf_filter_eq (p : MarkdownMeta → Bool)
    (hp : ∀ m, p m = false → processMeta m = none) (ms : List MarkdownMeta) :
    rootsOf (ms.filter p) = rootsOf ms := by
  induction ms with
  | nil => rfl
  | cons m rest ih =>
    rw [List.filter_cons]
    rcases hm : p m with _ | _
    · rw [if_neg (by simp), rootsOf_cons_none m rest (hp m hm)]
      exact ih
    · rw [if_pos (by simp)]
      cases hpm : processMeta m with
      | none => rw [rootsOf_cons_none m _ hpm, rootsOf_cons_none m rest hpm]; exact ih
      | some r => rw [rootsOf_cons_some m _ r hpm, rootsOf_cons_some m rest r hpm, ih]

/-- The record is a top-level landing page (handbook.go:162-168): its path
splits into a single element carrying the "markdowns" prefix, and its name
is the sentinel "Landing-Page". -/
def isTopLevelLandingB (m : MarkdownMeta) : Bool :=
  !m.path.isEmpty
    && (match splitSlash m.path with
        | [e0] => "markdowns".toList.isPrefixOf e0
        | _ => false)
    && decide (m.name = "Landing-Page".toList)

theorem processMeta_of_topLevelLanding (m : MarkdownMeta)
    (h : isTopLevelLandingB m = true) : processMeta m = none := by
  unfold isTopLevelLandingB at h
  rw [Bool.and_eq_true, Bool.and_eq_true] at h
  obtain ⟨⟨hne, hmatch⟩, hname⟩ := h
  have hpath : m.path ≠ [] := by
    intro hcon
    rw [hcon] at hne
    simp at hne
  unfold processMeta
  rw [if_neg hpath]
  rcases hsp : splitSlash m.path with _ | ⟨e0, _ | ⟨e1, rest⟩⟩
  · rfl
  · rw [hsp] at hmatch
    simp only at hmatch
    simp [hmatch, show m.name = "Landing-Page".toList from by simpa using hname]
  · rw [hsp] at hmatch
    simp at hmatch

/-- C2 (amended): a record named "Landing-Page" whose path is exactly the
top-level "markdowns" segment is unconditionally dropped: removing every
such record from the input leaves the forest of `BuildNavigationItemTrees`
unchanged, so no node is ever created for it.  (A deeper record named
"Landing-Page" is not dropped — see the counterexample.) -/
theorem buildNavigationItemTrees_drops_topLevel_landingPage
    (cle : Str → Str → Bool) (ms : List MarkdownMeta) :
    buildNavigationItemTrees cle (ms.filter (fun m => !isTopLevelLandingB m))
      = buildNavigationItemTrees cle ms := by
  unfold buildNavigationItemTrees buildNavigationItemTreesBeforeStrip
    linkChildrenWithTheSameParent
  rw [rootsOf_filter_eq (fun m => !isTopLevelLandingB m)
    (fun m hm => processMeta_of_topLevelLanding m (by simpa using hm)) ms]

/-- The valid-path guard of the record loop (handbook.go:148-156): a
non-empty path whose first segment carries the prefix "markdowns". -/
def hasValidPathB (m : MarkdownMeta) : Bool :=
  !m.path.isEmpty
    && (match splitSlash m.path with
        | e0 :: _ => "markdowns".toList.isPrefixOf e0
        | [] => false)

theorem processMeta_of_invalidPath (m : MarkdownMeta)
    (h : hasValidPathB m = false) : processMeta m = none := by
  unfold hasValidPathB at h
  rcases hemp : m.path.isEmpty with _ | _
  · rw [hemp] at h
    simp only [Bool.not_false, Bool.true_and] at h
    have hpath : m.path ≠ [] := by
      intro hcon
      rw [hcon] at hemp
      simp at hemp
    unfold processMeta
    rw [if_neg hpath]
    rcases hsp : splitSlash m.path with _ | ⟨e0, rest⟩
    · rfl
    · rw [hsp] at h
      simp only at h
      have h2 : (['m', 'a', 'r', 'k', 'd', 'o', 'w', 'n', 's'] : Str).isPrefixOf e0 = false := h
      simp [h2]
  · unfold processMeta
    rw [if_pos (List.isEmpty_iff.mp hemp)]

/-- C5 (amended): `BuildNavigationItemTrees` skips the records whose path is
empty or whose first path segment does not carry the prefix "markdowns"
(the code tests `strings.HasPrefix`, not equality with the segment):
removing every such record from the input leaves the output forest
unchanged, so a skipped record contributes zero nodes while all remaining
records are still processed — one bad record never aborts the build. -/
theorem buildNavigationItemTrees_skips_invalid_paths
    (cle : Str → Str → Bool) (ms : List MarkdownMeta) :
    buildNavigationItemTrees cle (ms.filter hasValidPathB)
      = buildNavigationItemTrees cle ms := by
  unfold buildNavigationItemTrees buildNavigationItemTreesBeforeStrip
    linkChildrenWithTheSameParent
  rw [rootsOf_filter_eq hasValidPathB processMeta_of_invalidPath ms]

theorem sizeForest_cons (n : NavItem) (rest : List NavItem) :
    sizeForest (n :: rest) = 1 + sizeForest n.children + sizeForest rest := by
  cases n
  simp [sizeForest, NavItem.children]

theorem sizeForest_append (a b : List NavItem) :
    sizeForest (a ++ b) = sizeForest a + sizeForest b := by
  induction a with
  | nil => simp [sizeForest]
  | cons n rest ih =>
    rw [List.cons_append, sizeForest_cons, sizeForest_cons, ih]
    omega

theorem sizeForest_eq_zero (ts : List NavItem) (h : sizeForest ts = 0) : ts = [] := by
  cases ts with
  | nil => rfl
  | cons n rest => rw [sizeForest_cons] at h; omega

theorem sizeForest_absorbTwinChildren (h : Str) (l : List NavItem) :
    sizeForest (absorbTwinChildren h l) ≤ sizeForest l := by
  induction l with
  | nil => simp [absorbTwinChildren, sizeForest]
  | cons n rest ih =>
    unfold absorbTwinChildren at ih ⊢
    rw [List.filter_cons]
    rcases hp : decide (n.href = h) with _ | _
    · rw [if_neg (by simp), sizeForest_cons]
      omega
    · rw [if_pos rfl, List.flatMap_cons, sizeForest_append, sizeForest_cons]
      omega

theorem sizeForest_children_of_mem_mergeDupsAux (seen : List Str) (l : List NavItem)
    (n : NavItem) (hn : n ∈ mergeDupsAux seen l) :
    sizeForest n.children < sizeForest l := by
  induction l generalizing seen with
  | nil => simp [mergeDupsAux] at hn
  | cons m rest ih =>
    obtain ⟨mh, ml, mc⟩ := m
    unfold mergeDupsAux at hn
    simp only [NavItem.href_mk, NavItem.label_mk, NavItem.children_mk] at hn
    by_cases hm : mh ∈ seen
    · rw [if_pos hm] at hn
      have := ih seen hn
      rw [sizeForest_cons]
      simp only [NavItem.children_mk]
      omega
    · rw [if_neg hm] at hn
      rcases List.mem_cons.mp hn with heq | hmem
      · subst heq
        simp only [NavItem.children_mk]
        rw [sizeForest_append, sizeForest_cons]
        simp only [NavItem.children_mk]
        have := sizeForest_absorbTwinChildren mh rest
        omega
      · have := ih (mh :: seen) hmem
        rw [sizeForest_cons]
        simp only [NavItem.children_mk]
        omega

theorem linkChildrenF_congr (f : Nat) :
    ∀ (g : Nat) (ts : List NavItem), sizeForest ts ≤ f → sizeForest ts ≤ g →
      linkChildrenF f ts = linkChildrenF g ts := by
  induction f with
  | zero =>
    intro g ts hf _
    rw [sizeForest_eq_zero ts (Nat.le_zero.mp hf)]
    cases g <;> rfl
  | succ f ih =>
    intro g ts hf hg
    cases ts with
    | nil => cases g <;> rfl
    | cons n rest =>
      cases g with
      | zero =>
        rw [sizeForest_cons] at hg
        omega
      | succ g =>
        show (List.insertionSort _ (mergeDupsAux [] (n :: rest))).map _
          = (List.insertionSort _ (mergeDupsAux [] (n :: rest))).map _
        apply List.map_congr_left
        intro x hx
        have hxm : x ∈ mergeDupsAux [] (n :: rest) :=
          (List.mem_insertionSort _).mp hx
        have hsz := sizeForest_children_of_mem_mergeDupsAux [] (n :: rest) x hxm
        rw [ih g x.children (by omega) (by omega)]

theorem linkChildrenWithTheSameParent_eq_fuel (f : Nat) (ts : List NavItem)
    (h : sizeForest ts ≤ f) :
    linkChildrenWithTheSameParent ts = linkChildrenF f ts :=
  linkChildrenF_congr (sizeForest ts) f ts le_rfl h

/-- C2, counterexample: a record named "Landing-Page" with the deeper path
"markdowns/Sub" is not dropped — the sentinel check (handbook.go:165) only
runs in the top-level branch — so the output forest contains a node with
href "Landing-Page" as a leaf under "Sub", contradicting the claim that
such records are dropped regardless of path depth. -/
theorem landingPage_nested_counterexample :
    existsNodeB (fun h => decide (h = "Landing-Page".toList))
      (buildNavigationItemTrees strLeB
        [⟨"Landing-Page".toList, "markdowns/Sub".toList⟩]) = true := by
  have hfuel : sizeForest
      (rootsOf [⟨"Landing-Page".toList, "markdowns/Sub".toList⟩]) ≤ 2 := by
    show sizeForest [NavItem.mk "Sub".toList "Sub".toList
      [NavItem.mk "Landing-Page".toList "Landing-Page".toList []]] ≤ 2
    simp [sizeForest]
  have hb : buildNavigationItemTrees strLeB
      [⟨"Landing-Page".toList, "markdowns/Sub".toList⟩]
      = [NavItem.mk "Sub".toList "Sub".toList
          [NavItem.mk "Landing-Page".toList "Landing-Page".toList []]] := by
    unfold buildNavigationItemTrees buildNavigationItemTreesBeforeStrip
    rw [linkChildrenWithTheSameParent_eq_fuel 2 _ hfuel]
    rfl
  rw [hb]
  simp [existsNodeB]

/-- C3, counterexample: a record with path "markdowns/Root/.hidden" yields
the nested node ".hidden" in the output forest — `removeDotPrefixedRoots`
only filters the top level — contradicting the claim that dot-prefixed
nodes are absent at every nesting depth. -/
theorem dotPrefixed_nested_counterexample :
    existsNodeB startsWithDot
      (buildNavigationItemTrees strLeB
        [⟨"doc".toList, "markdowns/Root/.hidden".toList⟩]) = true := by
  have hfuel : sizeForest
      (rootsOf [⟨"doc".toList, "markdowns/Root/.hidden".toList⟩]) ≤ 3 := by
    show sizeForest [NavItem.mk "Root".toList "Root".toList
      [NavItem.mk ".hidden".toList ".hidden".toList
        [NavItem.mk "doc".toList "doc".toList []]]] ≤ 3
    simp [sizeForest]
  have hb : buildNavigationItemTrees strLeB
      [⟨"doc".toList, "markdowns/Root/.hidden".toList⟩]
      = [NavItem.mk "Root".toList "Root".toList
          [NavItem.mk ".hidden".toList ".hidden".toList
            [NavItem.mk "doc".toList "doc".toList []]]] := by
    unfold buildNavigationItemTrees buildNavigationItemTreesBeforeStrip
    rw [linkChildrenWithTheSameParent_eq_fuel 3 _ hfuel]
    rfl
  rw [hb]
  simp [existsNodeB, startsWithDot]

/-- C3 (amended): the dot-filter applies only to the top level: after
`removeDotPrefixedRoots` — and still after the collator sort — no root of
the forest has a dot-prefixed href; each dot-prefixed root is dropped
together with its entire subtree, since dropping a root removes all its
descendants from the output.  Nested nodes are never inspected, so a
dot-prefixed node below the top level survives (see the counterexample). -/
theorem buildBeforeStrip_roots_not_dotPrefixed (cle : Str → Str → Bool)
    (ms : List MarkdownMeta) :
    (buildNavigationItemTreesBeforeStrip cle ms).all
      (fun n => !startsWithDot n.href) = true := by
  rw [List.all_eq_true]
  intro n hn
  have hmem := (List.mem_insertionSort _).mp hn
  rw [removeDotPrefixedRoots, List.mem_filter] at hmem
  simpa using hmem.2

/-- C5, counterexample: the record with path "markdownsX" and name "Doc"
has a first path segment different from "markdowns", so by the claim it
should be skipped and contribute zero nodes; the code only checks
`strings.HasPrefix(pathElements[0], "markdowns")` (handbook.go:154), which
"markdownsX" satisfies, so the record produces a root node. -/
theorem markdownsPrefix_counterexample :
    buildNavigationItemTrees strLeB [⟨"Doc".toList, "markdownsX".toList⟩]
        = [NavItem.mk "Doc".toList "Doc".toList []] ∧
      buildNavigationItemTrees strLeB [⟨"Doc".toList, "markdownsX".toList⟩] ≠ [] := by
  have hfuel : sizeForest (rootsOf [⟨"Doc".toList, "markdownsX".toList⟩]) ≤ 1 := by
    show sizeForest [NavItem.mk "Doc".toList "Doc".toList []] ≤ 1
    simp [sizeForest]
  have hb : buildNavigationItemTrees strLeB [⟨"Doc".toList, "markdownsX".toList⟩]
      = [NavItem.mk "Doc".toList "Doc".toList []] := by
    unfold buildNavigationItemTrees buildNavigationItemTreesBeforeStrip
    rw [linkChildrenWithTheSameParent_eq_fuel 1 _ hfuel]
    rfl
  exact ⟨hb, by rw [hb]; exact List.cons_ne_nil _ _⟩

/-- `models.MarkdownContent`: the fields the search ranking reads (the
document content that is scored against the term, plus its meta record). -/
structure MarkdownContent where
  meta : MarkdownMeta
  content : Str

/-- `MatchesWithSimilarity` (handbook_controller.go:32-35). -/
structure MatchesWithSimilarity where
  content : MarkdownContent
  similarity : Option ℚ

/-- The scoring loop of `GetMarkdownSearchTermMatches`
(handbook_controller.go:135-143): walk the candidates in arrival order with
index `i`, break — before scoring — as soon as `i >= pageSize`, otherwise
append the candidate paired with its similarity against the term. -/
def scoreFirstPage (term : Str) (pageSize : Nat) :
    Nat → List MarkdownContent → List MatchesWithSimilarity
  | _, [] => []
  | i, v :: rest =>
    if pageSize ≤ i then []
    else ⟨v, trigramSorensenDiceSimilarity v.content term⟩
      :: scoreFirstPage term pageSize (i + 1) rest

/-- The comparator of the descending sort (handbook_controller.go:146-151):
"a sorts strictly before b" exactly when `a.similarity > b.similarity`.
IEEE comparisons against NaN are false, so a NaN similarity is never
"greater". -/
def simGtB : Option ℚ → Option ℚ → Bool
  | some x, some y => decide (y < x)
  | _, _ => false

/-- `slices.SortFunc(matchesWithSimilarity, cmp)` with `cmp(a,b) = -1` iff
`a.similarity > b.similarity` (handbook_controller.go:146-151), modelled as
an insertion sort under the same strictly-greater comparator.  When no
similarity is NaN the comparator is a strict weak order and every
conforming sort — Go's pdqsort included — returns a permutation that is
non-increasing in similarity, unique up to the order of tied scores, which
`slices.SortFunc` leaves unspecified. -/
def sortBySimilarityDesc (l : List MatchesWithSimilarity) : List MatchesWithSimilarity :=
  List.insertionSort (fun a b => simGtB a.similarity b.similarity = true) l

/-- The ranking core of `GetMarkdownSearchTermMatches`
(handbook_controller.go:135-151): score at most the first `pageSize`
candidates, in arrival order, then sort those by similarity descending. -/
def rankSearchMatches (term : Str) (pageSize : Nat)
    (searchMatches : List MarkdownContent) : List MatchesWithSimilarity :=
  sortBySimilarityDesc (scoreFirstPage term pageSize 0 searchMatches)

theorem scoreFirstPage_eq_take (term : Str) (pageSize : Nat)
    (cs : List MarkdownContent) :
    ∀ i : Nat, scoreFirstPage term pageSize i cs
      = (cs.take (pageSize - i)).map
          (fun v => ⟨v, trigramSorensenDiceSimilarity v.content term⟩) := by
  induction cs with
  | nil => intro i; simp [scoreFirstPage]
  | cons v rest ih =>
    intro i
    by_cases hi : pageSize ≤ i
    · have h0 : pageSize - i = 0 := by omega
      simp [scoreFirstPage, hi, h0]
    · have h1 : pageSize - i = (pageSize - (i + 1)) + 1 := by omega
      simp only [scoreFirstPage, if_neg hi, h1, List.take_succ_cons, List.map_cons]
      rw [ih (i + 1)]

theorem trigramSimilarity_ne_none (a term : Str) (hterm : term ≠ []) :
    trigramSorensenDiceSimilarity a term ≠ none := by
  unfold trigramSorensenDiceSimilarity
  have hb := transformToUniqueTrigrams_ne_nil term hterm
  have hlen : 0 < (transformToUniqueTrigrams term).length := List.length_pos.mpr hb
  rw [if_neg (by omega)]
  simp

theorem simGtB_asymm (x y : Option ℚ) (h : simGtB x y = true) : simGtB y x = false := by
  rcases x with _ | qx <;> rcases y with _ | qy <;> simp [simGtB] at h ⊢
  exact le_of_lt h

theorem simGtB_shift (x y z : Option ℚ) (hz : z ≠ none)
    (h1 : simGtB x y = true) (h2 : simGtB z y = false) : simGtB z x = false := by
  rcases x with _ | qx <;> rcases y with _ | qy <;> simp [simGtB] at h1
  rcases z with _ | qz
  · cases hz rfl
  · simp [simGtB] at h2 ⊢
    exact le_trans h2 (le_of_lt h1)

theorem orderedInsert_pairwise_desc (a : MatchesWithSimilarity)
    (l : List MatchesWithSimilarity)
    (hl : ∀ m ∈ l, m.similarity ≠ none)
    (hp : List.Pairwise (fun x y => simGtB y.similarity x.similarity = false) l) :
    List.Pairwise (fun x y => simGtB y.similarity x.similarity = false)
      (List.orderedInsert (fun x y => simGtB x.similarity y.similarity = true) a l) := by
  induction l with
  | nil => simp [List.orderedInsert]
  | cons b t ih =>
    rw [List.orderedInsert]
    by_cases hr : simGtB a.similarity b.similarity = true
    · rw [if_pos hr]
      rw [List.pairwise_cons]
      refine ⟨?_, hp⟩
      intro y hy
      rcases List.mem_cons.mp hy with rfl | hyt
      · exact simGtB_asymm a.similarity y.similarity hr
      · rcases List.pairwise_cons.mp hp with ⟨hbt, _⟩
        exact simGtB_shift a.similarity b.similarity y.similarity
          (hl y (by simp [hyt])) hr (hbt y hyt)
    · rw [if_neg hr]
      rcases List.pairwise_cons.mp hp with ⟨hbt, hpt⟩
      rw [List.pairwise_cons]
      constructor
      · intro y hy
        rcases (List.mem_orderedInsert _).mp hy with rfl | hyt
        · simpa using hr
        · exact hbt y hyt
      · exact ih (fun m hm => hl m (by simp [hm])) hpt

theorem pairwise_sortBySimilarityDesc (l : List MatchesWithSimilarity)
    (hl : ∀ m ∈ l, m.similarity ≠ none) :
    List.Pairwise (fun a b => simGtB b.similarity a.similarity = false)
      (sortBySimilarityDesc l) := by
  unfold sortBySimilarityDesc
  induction l with
  | nil => simp
  | cons a t ih =>
    rw [List.insertionSort]
    exact orderedInsert_pairwise_desc a _
      (fun m hm => hl m (by simp [(List.mem_insertionSort _).mp hm]))
      (ih (fun m hm => hl m (by simp [hm])))

/-- C6: the search ranking scores only the first `pageSize` candidates in
arrival order — the scoring loop equals "truncate to `pageSize`, then
score", so a candidate beyond the first `pageSize` positions is never
scored and never appears in the output even if it would rank higher — and
the ranked result is a permutation of those scored candidates ordered
non-increasingly by similarity (ties in unspecified order; the non-blank
term guaranteed by the controller rules out NaN scores). -/
theorem rankSearchMatches_spec (term : Str) (pageSize : Nat)
    (searchMatches : List MarkdownContent) (hterm : term ≠ []) :
    scoreFirstPage term pageSize 0 searchMatches
        = (searchMatches.take pageSize).map
            (fun v => MatchesWithSimilarity.mk v
              (trigramSorensenDiceSimilarity v.content term)) ∧
      List.Perm (rankSearchMatches term pageSize searchMatches)
        ((searchMatches.take pageSize).map
          (fun v => MatchesWithSimilarity.mk v
            (trigramSorensenDiceSimilarity v.content term))) ∧
      List.Pairwise (fun a b => simGtB b.similarity a.similarity = false)
        (rankSearchMatches term pageSize searchMatches) := by
  have h1 := scoreFirstPage_eq_take term pageSize searchMatches 0
  rw [Nat.sub_zero] at h1
  refine ⟨h1, ?_, ?_⟩
  · exact h1 ▸ List.perm_insertionSort _ _
  · apply pairwise_sortBySimilarityDesc
    intro m hm
    rw [h1] at hm
    rcases List.mem_map.mp hm with ⟨v, _, rfl⟩
    exact trigramSimilarity_ne_none v.content term hterm

theorem rankSearchMatches_spec_witness :
    (("ab".toList : Str) ≠ []) ∧
      (scoreFirstPage "ab".toList 1 0
          [⟨⟨[], []⟩, "cd".toList⟩, ⟨⟨[], []⟩, "ab".toList⟩]
          = (([⟨⟨[], []⟩, "cd".toList⟩,
              ⟨⟨[], []⟩, "ab".toList⟩] : List MarkdownContent).take 1).map
              (fun v => MatchesWithSimilarity.mk v
                (trigramSorensenDiceSimilarity v.content "ab".toList)) ∧
        List.Perm (rankSearchMatches "ab".toList 1
            [⟨⟨[], []⟩, "cd".toList⟩, ⟨⟨[], []⟩, "ab".toList⟩])
          ((([⟨⟨[], []⟩, "cd".toList⟩,
              ⟨⟨[], []⟩, "ab".toList⟩] : List MarkdownContent).take 1).map
            (fun v => MatchesWithSimilarity.mk v
              (trigramSorensenDiceSimilarity v.content "ab".toList))) ∧
        List.Pairwise (fun a b => simGtB b.similarity a.similarity = false)
          (rankSearchMatches "ab".toList 1
            [⟨⟨[], []⟩, "cd".toList⟩, ⟨⟨[], []⟩, "ab".toList⟩])) :=
  ⟨by decide,
    rankSearchMatches_spec "ab".toList 1
      [⟨⟨[], []⟩, "cd".toList⟩, ⟨⟨[], []⟩, "ab".toList⟩] (by decide)⟩

theorem strLeB_total : ∀ a b : Str, strLeB a b = true ∨ strLeB b a = true
  | [], _ => Or.inl rfl
  | _ :: _, [] => Or.inr rfl
  | a :: as, b :: bs => by
    by_cases hab : a = b
    · subst hab
      rcases strLeB_total as bs with h | h
      · exact Or.inl (by simp [strLeB, h])
      · exact Or.inr (by simp [strLeB, h])
    · rcases lt_trichotomy a b with hlt | heq | hgt
      · exact Or.inl (by simp [strLeB, hab, hlt])
      · exact absurd heq hab
      · have hba : ¬ b = a := fun h => hab h.symm
        exact Or.inr (by simp [strLeB, hba, hgt])

theorem strLeB_trans : ∀ a b c : Str,
    strLeB a b = true → strLeB b c = true → strLeB a c = true
  | [], _, _, _, _ => rfl
  | a :: as, [], c, h1, _ => by simp [strLeB] at h1
  | a :: as, b :: bs, [], _, h2 => by simp [strLeB] at h2
  | a :: as, b :: bs, c :: cs, h1, h2 => by
    by_cases hab : a = b <;> by_cases hbc : b = c
    · subst hab; subst hbc
      simp only [strLeB, if_pos rfl] at h1 h2 ⊢
      exact strLeB_trans as bs cs h1 h2
    · subst hab
      simp only [strLeB, if_neg hbc] at h2
      simp only [strLeB, if_neg hbc]
      exact h2
    · subst hbc
      simp only [strLeB, if_neg hab] at h1
      simp only [strLeB, if_neg hab]
      exact h1
    · simp only [strLeB, if_neg hab] at h1
      simp only [strLeB, if_neg hbc] at h2
      have hac : a < c := lt_trans (of_decide_eq_true h1) (of_decide_eq_true h2)
      simp [strLeB, ne_of_lt hac, hac]

theorem pairwiseB_iff (pw : Str → Str → Bool) :
    ∀ l : List Str, pairwiseB pw l = true ↔ List.Pairwise (fun a b => pw a b = true) l := by
  intro l
  induction l with
  | nil => simp [pairwiseB]
  | cons x xs ih =>
    simp only [pairwiseB, Bool.and_eq_true, List.pairwise_cons, List.all_eq_true, ih]

theorem nodupStrB_iff : ∀ l : List Str, nodupStrB l = true ↔ l.Nodup := by
  intro l
  induction l with
  | nil => simp [nodupStrB]
  | cons x xs ih =>
    unfold nodupStrB
    rw [Bool.and_eq_true, List.nodup_cons, ih]
    constructor
    · rintro ⟨h1, h2⟩
      refine ⟨fun hmem => ?_, h2⟩
      have hc : xs.contains x = true := List.elem_eq_true_of_mem hmem
      rw [hc] at h1
      cases h1
    · rintro ⟨h1, h2⟩
      refine ⟨?_, h2⟩
      rcases hc : xs.contains x with _ | _
      · rfl
      · exact absurd (List.mem_of_elem_eq_true hc) h1

theorem childrenSortedByB_eq_all (pw : Str → Str → Bool) :
    ∀ l : List NavItem, childrenSortedByB pw l
      = l.all (fun n => pairwiseB pw (n.children.map NavItem.href)
          && childrenSortedByB pw n.children) := by
  intro l
  induction l with
  | nil => simp [childrenSortedByB]
  | cons n rest ih =>
    obtain ⟨h, lb, cs⟩ := n
    conv_lhs => rw [childrenSortedByB]
    rw [List.all_cons, ih]
    simp [NavItem.children_mk, NavItem.href_mk, Bool.and_assoc]

theorem childrenHrefsDistinctB_eq_all :
    ∀ l : List NavItem, childrenHrefsDistinctB l
      = l.all (fun n => nodupStrB (n.children.map NavItem.href)
          && childrenHrefsDistinctB n.children) := by
  intro l
  induction l with
  | nil => simp [childrenHrefsDistinctB]
  | cons n rest ih =>
    obtain ⟨h, lb, cs⟩ := n
    conv_lhs => rw [childrenHrefsDistinctB]
    rw [List.all_cons, ih]
    simp [NavItem.children_mk, NavItem.href_mk, Bool.and_assoc]

theorem mergeDupsAux_href_nodup : ∀ (seen : List Str) (l : List NavItem),
    ((mergeDupsAux seen l).map NavItem.href).Nodup
      ∧ ∀ n ∈ mergeDupsAux seen l, n.href ∉ seen := by
  intro seen l
  induction l generalizing seen with
  | nil => simp [mergeDupsAux]
  | cons m rest ih =>
    obtain ⟨mh, ml, mc⟩ := m
    unfold mergeDupsAux
    simp only [NavItem.href_mk]
    by_cases hm : mh ∈ seen
    · rw [if_pos hm]
      exact ih seen
    · rw [if_neg hm]
      obtain ⟨ihn, ihs⟩ := ih (mh :: seen)
      constructor
      · rw [List.map_cons, List.nodup_cons, NavItem.href_mk]
        refine ⟨?_, ihn⟩
        intro hcon
        rcases List.mem_map.mp hcon with ⟨n, hn, hhref⟩
        exact ihs n hn (by rw [hhref]; exact List.mem_cons_self _ _)
      · intro n hn
        rcases List.mem_cons.mp hn with rfl | hnt
        · rw [NavItem.href_mk]; exact hm
        · intro hcon
          exact ihs n hnt (List.mem_cons_of_mem _ hcon)

theorem map_rebuild_href (f : Nat) (l : List NavItem) :
    ((l.map (fun n => NavItem.mk n.href n.label (linkChildrenF f n.children))).map
        NavItem.href)
      = l.map NavItem.href := by
  induction l with
  | nil => rfl
  | cons n rest ih => simp only [List.map_cons, NavItem.href_mk, ih]

theorem linkChildrenF_toplevel_sorted (f : Nat) (ts : List NavItem)
    (h : sizeForest ts ≤ f) :
    pairwiseB strLeB ((linkChildrenF f ts).map NavItem.href) = true := by
  cases f with
  | zero =>
    rw [sizeForest_eq_zero ts (Nat.le_zero.mp h)]
    simp [linkChildrenF, pairwiseB]
  | succ f =>
    cases ts with
    | nil => simp [linkChildrenF, pairwiseB]
    | cons n rest =>
      show pairwiseB strLeB
        (((List.insertionSort (fun a b => strLeB a.href b.href = true)
            (mergeDupsAux [] (n :: rest))).map
          (fun n => NavItem.mk n.href n.label (linkChildrenF f n.children))).map
            NavItem.href) = true
      rw [map_rebuild_href, pairwiseB_iff, List.pairwise_map]
      haveI : IsTotal NavItem (fun a b => strLeB a.href b.href = true) :=
        ⟨fun a b => strLeB_total a.href b.href⟩
      haveI : IsTrans NavItem (fun a b => strLeB a.href b.href = true) :=
        ⟨fun a b c => strLeB_trans a.href b.href c.href⟩
      exact List.sorted_insertionSort _ _

theorem linkChildrenF_childrenSorted (f : Nat) : ∀ ts : List NavItem,
    sizeForest ts ≤ f → childrenSortedByB strLeB (linkChildrenF f ts) = true := by
  induction f with
  | zero =>
    intro ts hts
    rw [sizeForest_eq_zero ts (Nat.le_zero.mp hts)]
    simp [linkChildrenF, childrenSortedByB]
  | succ f ih =>
    intro ts hts
    cases ts with
    | nil => simp [linkChildrenF, childrenSortedByB]
    | cons n rest =>
      show childrenSortedByB strLeB
        ((List.insertionSort (fun a b => strLeB a.href b.href = true)
            (mergeDupsAux [] (n :: rest))).map
          (fun n => NavItem.mk n.href n.label (linkChildrenF f n.children))) = true
      rw [childrenSortedByB_eq_all, List.all_eq_true]
      intro x hx
      rcases List.mem_map.mp hx with ⟨m, hm, rfl⟩
      rw [NavItem.children_mk, Bool.and_eq_true]
      have hmm := (List.mem_insertionSort _).mp hm
      have hsz := sizeForest_children_of_mem_mergeDupsAux [] _ m hmm
      constructor
      · exact linkChildrenF_toplevel_sorted f m.children (by omega)
      · exact ih m.children (by omega)

theorem linkChildrenF_distinct (f : Nat) : ∀ ts : List NavItem,
    sizeForest ts ≤ f → forestHrefsDistinctB (linkChildrenF f ts) = true := by
  induction f with
  | zero =>
    intro ts hts
    rw [sizeForest_eq_zero ts (Nat.le_zero.mp hts)]
    simp [linkChildrenF, forestHrefsDistinctB, nodupStrB, childrenHrefsDistinctB]
  | succ f ih =>
    intro ts hts
    cases ts with
    | nil => simp [linkChildrenF, forestHrefsDistinctB, nodupStrB, childrenHrefsDistinctB]
    | cons n rest =>
      show forestHrefsDistinctB
        ((List.insertionSort (fun a b => strLeB a.href b.href = true)
            (mergeDupsAux [] (n :: rest))).map
          (fun n => NavItem.mk n.href n.label (linkChildrenF f n.children))) = true
      unfold forestHrefsDistinctB
      rw [Bool.and_eq_true]
      constructor
      · rw [nodupStrB_iff, map_rebuild_href]
        have hperm : List.Perm
            (List.insertionSort (fun a b => strLeB a.href b.href = true)
              (mergeDupsAux [] (n :: rest)))
            (mergeDupsAux [] (n :: rest)) := List.perm_insertionSort _ _
        exact ((hperm.map NavItem.href).nodup_iff).mpr
          (mergeDupsAux_href_nodup [] (n :: rest)).1
      · rw [childrenHrefsDistinctB_eq_all, List.all_eq_true]
        intro x hx
        rcases List.mem_map.mp hx with ⟨m, hm, rfl⟩
        rw [NavItem.children_mk]
        have hmm := (List.mem_insertionSort _).mp hm
        have hsz := sizeForest_children_of_mem_mergeDupsAux [] _ m hmm
        have hall := ih m.children (by omega)
        unfold forestHrefsDistinctB at hall
        exact hall

/-- C9: after the merge pass (`linkChildrenWithTheSameParent`), every
sibling group of the resulting forest — the top-level list and recursively
every children list, at every depth — has pairwise-distinct hrefs; and the
two records sharing the path "markdowns/Gateway" yield exactly one
"Gateway" node whose children list holds exactly the two document leaves
(byte-wise sorted). -/
theorem linkChildren_distinct_hrefs :
    (∀ ts : List NavItem,
        forestHrefsDistinctB (linkChildrenWithTheSameParent ts) = true) ∧
      buildNavigationItemTrees strLeB
          [⟨"Onboarding".toList, "markdowns/Gateway".toList⟩,
            ⟨"Getting-Started".toList, "markdowns/Gateway".toList⟩]
        = [NavItem.mk "Gateway".toList "Gateway".toList
            [NavItem.mk "Getting-Started".toList "Getting-Started".toList [],
              NavItem.mk "Onboarding".toList "Onboarding".toList []]] := by
  constructor
  · intro ts
    exact linkChildrenF_distinct (sizeForest ts) ts le_rfl
  · have hfuel : sizeForest
        (rootsOf [⟨"Onboarding".toList, "markdowns/Gateway".toList⟩,
          ⟨"Getting-Started".toList, "markdowns/Gateway".toList⟩]) ≤ 4 := by
      show sizeForest
        [NavItem.mk "Gateway".toList "Gateway".toList
          [NavItem.mk "Onboarding".toList "Onboarding".toList []],
         NavItem.mk "Gateway".toList "Gateway".toList
          [NavItem.mk "Getting-Started".toList "Getting-Started".toList []]] ≤ 4
      simp [sizeForest]
    unfold buildNavigationItemTrees buildNavigationItemTreesBeforeStrip
    rw [linkChildrenWithTheSameParent_eq_fuel 4 _ hfuel]
    rfl

theorem removeNumberPrefixFromRoot_children (n : NavItem) :
    (removeNumberPrefixFromRoot n).children = n.children := by
  unfold removeNumberPrefixFromRoot
  split
  · rw [NavItem.children_mk]
  · split
    · rw [NavItem.children_mk]
    · rfl

theorem childrenSortedByB_of_mem (pw : Str → Str → Bool) (l l2 : List NavItem)
    (h : childrenSortedByB pw l = true) (hsub : ∀ n ∈ l2, n ∈ l) :
    childrenSortedByB pw l2 = true := by
  rw [childrenSortedByB_eq_all, List.all_eq_true] at h ⊢
  intro n hn
  exact h n (hsub n hn)

theorem childrenSortedByB_map_strip (pw : Str → Str → Bool) (l : List NavItem) :
    childrenSortedByB pw (l.map removeNumberPrefixFromRoot)
      = childrenSortedByB pw l := by
  rw [childrenSortedByB_eq_all, childrenSortedByB_eq_all, List.all_map]
  congr 1
  funext n
  simp only [Function.comp, removeNumberPrefixFromRoot_children]

/-- C4 (amended): the root list is ordered by the injected collation
comparator at the point of the collator sort (handbook.go:213-215) — over
the root hrefs as they stand before numeric-prefix stripping — while every
nested merged sibling group, at every depth, is ordered byte-wise ascending
by href (`strings.Compare`, handbook.go:336-338), not by the injected
collator. -/
theorem buildNavigationItemTrees_sorting (cle : Str → Str → Bool)
    (htot : ∀ a b : Str, cle a b = true ∨ cle b a = true)
    (htrans : ∀ a b c : Str, cle a b = true → cle b c = true → cle a c = true)
    (ms : List MarkdownMeta) :
    List.Pairwise (fun a b : NavItem => cle a.href b.href = true)
        (buildNavigationItemTreesBeforeStrip cle ms) ∧
      childrenSortedByB strLeB (buildNavigationItemTrees cle ms) = true := by
  constructor
  · unfold buildNavigationItemTreesBeforeStrip
    haveI : IsTotal NavItem (fun a b : NavItem => cle a.href b.href = true) :=
      ⟨fun a b => htot a.href b.href⟩
    haveI : IsTrans NavItem (fun a b : NavItem => cle a.href b.href = true) :=
      ⟨fun a b c => htrans a.href b.href c.href⟩
    exact List.sorted_insertionSort _ _
  · unfold buildNavigationItemTrees buildNavigationItemTreesBeforeStrip
      removeNumberPrefixFromRoots
    rw [childrenSortedByB_map_strip]
    apply childrenSortedByB_of_mem strLeB (linkChildrenWithTheSameParent (rootsOf ms))
    · exact linkChildrenF_childrenSorted (sizeForest (rootsOf ms)) (rootsOf ms) le_rfl
    · intro n hn
      have hmem := (List.mem_insertionSort _).mp hn
      exact List.mem_of_mem_filter hmem

theorem buildNavigationItemTrees_sorting_witness :
    (∀ a b : Str, strLeB a b = true ∨ strLeB b a = true) ∧
      (List.Pairwise (fun a b : NavItem => strLeB a.href b.href = true)
          (buildNavigationItemTreesBeforeStrip strLeB
            [⟨"doc".toList, "markdowns/Root/Sub".toList⟩]) ∧
        childrenSortedByB strLeB (buildNavigationItemTrees strLeB
          [⟨"doc".toList, "markdowns/Root/Sub".toList⟩]) = true) :=
  ⟨strLeB_total,
    buildNavigationItemTrees_sorting strLeB strLeB_total strLeB_trans
      [⟨"doc".toList, "markdowns/Root/Sub".toList⟩]⟩

/-- Swaps the code points of `_` and `-`, so that comparing swapped strings
orders `_` before `-`, as the locale collator documented in the code does. -/
def swapUnderscoreDash (c : Char) : Char :=
  if c = '_' then '-' else if c = '-' then '_' else c

/-- A locale-like injected comparator that, exactly like the collator
described in the code's own doc comment (handbook.go:95-111), orders
"A_Guidelines" strictly before "A-Guidelines" (byte order puts them the
other way around, `-` being 0x2D and `_` 0x5F). -/
def cleDemo (a b : Str) : Bool :=
  strLeB (a.map swapUnderscoreDash) (b.map swapUnderscoreDash)

/-- C4, counterexample: with the injected collator `cleDemo` the records
under "Root" produce the children list ["A-Guidelines", "A_Guidelines"] in
raw byte order (`strings.Compare`, handbook.go:336-338) and not in collator
order, so not every sibling group of the forest is ordered by the injected
locale-aware comparator. -/
theorem nestedSiblings_byteOrder_counterexample :
    allSiblingGroupsSortedByB cleDemo
      (buildNavigationItemTrees cleDemo
        [⟨"d1".toList, "markdowns/Root/A_Guidelines".toList⟩,
          ⟨"d2".toList, "markdowns/Root/A-Guidelines".toList⟩]) = false := by
  have hfuel : sizeForest
      (rootsOf [⟨"d1".toList, "markdowns/Root/A_Guidelines".toList⟩,
        ⟨"d2".toList, "markdowns/Root/A-Guidelines".toList⟩]) ≤ 6 := by
    show sizeForest
      [NavItem.mk "Root".toList "Root".toList
        [NavItem.mk "A_Guidelines".toList "A Guidelines".toList
          [NavItem.mk "d1".toList "d1".toList []]],
       NavItem.mk "Root".toList "Root".toList
        [NavItem.mk "A-Guidelines".toList "A-Guidelines".toList
          [NavItem.mk "d2".toList "d2".toList []]]] ≤ 6
    simp [sizeForest]
  have hb : buildNavigationItemTrees cleDemo
      [⟨"d1".toList, "markdowns/Root/A_Guidelines".toList⟩,
        ⟨"d2".toList, "markdowns/Root/A-Guidelines".toList⟩]
      = [NavItem.mk "Root".toList "Root".toList
          [NavItem.mk "A-Guidelines".toList "A-Guidelines".toList
            [NavItem.mk "d2".toList "d2".toList []],
           NavItem.mk "A_Guidelines".toList "A Guidelines".toList
            [NavItem.mk "d1".toList "d1".toList []]]] := by
    unfold buildNavigationItemTrees buildNavigationItemTreesBeforeStrip
    rw [linkChildrenWithTheSameParent_eq_fuel 6 _ hfuel]
    rfl
  rw [hb]
  simp [allSiblingGroupsSortedByB, childrenSortedByB, pairwiseB, cleDemo,
    swapUnderscoreDash, strLeB]
